import Mathlib

/-!
# Verification of the Bottlerocket settings datastore core

A shallow embedding of the settings-management core:

* `workspaces/api/apiserver/src/datastore/filesystem.rs` — the filesystem
  realization of the datastore (paths, listing, commit);
* `workspaces/api/apiserver/src/server/controller/mod.rs` — the controller
  layer (`get_metadata`, `settings_input`, commit plumbing);
* `workspaces/api/thar-be-settings/src/config.rs` — the configuration-file
  materializer (`render_config_files`).

Rust strings that are split and joined (key names, path components) are
modelled as `List Char`; opaque payloads (file contents, stored values)
stay `String`.  Filesystem paths are modelled component-wise as
`List (List Char)`; `PathBuf::join` with a relative suffix is list append,
and `Path::starts_with` is component-wise list prefix.  Fallible Rust
functions returning `Result` become `Except DSError`.
-/

namespace Bottlerocket

/-- A path component / key segment, modelling a piece of a Rust string. -/
abbrev Seg := List Char

/-- A filesystem path, modelled component-wise (`PathBuf`). -/
abbrev FsPath := List Seg

/-! ## Keys (`datastore::Key`)

The `Key` type itself lives in `datastore/mod.rs`, which is not among the
sources; it is modelled from the spec (§4.A): an ordered sequence of
non-empty segments, each matching `[A-Za-z0-9_-]+`, separated by `.`,
with the total dotted length below a 4 KiB bound; Data keys have ≥ 1
segment and Meta keys exactly one. -/

/-- Modelled from the spec: the key segment character class `[A-Za-z0-9_-]`. -/
def validKeyChar (c : Char) : Bool :=
  ('A' ≤ c && c ≤ 'Z') || ('a' ≤ c && c ≤ 'z') || ('0' ≤ c && c ≤ '9') || c = '_' || c = '-'

/-- Modelled from the spec: a valid key segment is non-empty and drawn from
the segment character class. -/
def validSegment (s : Seg) : Bool :=
  (decide (s ≠ [])) && s.all validKeyChar

/-- Join segments with a separator character, the component-level meaning of
the dotted (resp. slash-separated) form of a key. -/
def joinSep (sep : Char) : List Seg → List Char
  | [] => []
  | [s] => s
  | s :: s' :: rest => s ++ sep :: joinSep sep (s' :: rest)

/-- The dotted text of a list of segments (`Key::as_ref` / `Display`). -/
def keyName (segs : List Seg) : List Char := joinSep '.' segs

/-- Modelled from the spec: validity of a data key's segment list, including
the 4 KiB bound on the dotted text. -/
def KeyOK (segs : List Seg) : Prop :=
  segs ≠ [] ∧ (∀ s ∈ segs, validSegment s = true) ∧ (keyName segs).length < 4096

instance (segs : List Seg) : Decidable (KeyOK segs) := by
  unfold KeyOK; infer_instance

/-- A validated data key: the spec's "ordered sequence of non-empty
segments".  Its dotted text is `Key.name`. -/
def Key := { segs : List Seg // KeyOK segs }

instance : DecidableEq Key := Subtype.instDecidableEq

/-- The segment list of a key. -/
def Key.segs (k : Key) : List Seg := k.val

/-- The dotted text of a key (what `Key` derefs to in the Rust sources). -/
def Key.name (k : Key) : List Char := keyName k.val

/-- The `KeyType` kind tag from `datastore/mod.rs` (modelled from the spec §4.A). -/
inductive KeyType
  | Data
  | Meta
deriving DecidableEq

/-- Datastore error taxonomy (`datastore::error`), with payloads reduced to
what the claims inspect. -/
inductive DSError
  | InvalidKey (name : List Char)
  | PathTraversal (name : List Char)
  | Io (path : FsPath)
  | Corruption (path : FsPath)
  | PathStrip
  | Internal
deriving DecidableEq

instance {ε α : Type} [DecidableEq ε] [DecidableEq α] : DecidableEq (Except ε α) := fun a b =>
  match a, b with
  | .ok x, .ok y =>
    if h : x = y then isTrue (by rw [h]) else isFalse (fun hc => h (Except.ok.inj hc))
  | .error x, .error y =>
    if h : x = y then isTrue (by rw [h]) else isFalse (fun hc => h (Except.error.inj hc))
  | .ok _, .error _ => isFalse (fun hc => Except.noConfusion hc)
  | .error _, .ok _ => isFalse (fun hc => Except.noConfusion hc)

/-- Modelled from the spec: `Key::new(kind, text)` splits the text on `.`,
requires every segment non-empty and in the character class, the total
length below the bound, and exactly one segment for the Meta kind. -/
def Key.new (t : KeyType) (name : List Char) : Except DSError Key :=
  let segs := name.splitOn '.'
  if h : KeyOK segs then
    match t with
    | .Data => .ok ⟨segs, h⟩
    | .Meta => if segs.length = 1 then .ok ⟨segs, h⟩ else .error (.InvalidKey name)
  else
    .error (.InvalidKey name)

/-! ## Filesystem model

A finite model of the portion of the filesystem the datastore owns:
regular files (path ↦ bytes) and directories.  `fs::write`,
`fs::create_dir_all`, `fs::remove_dir_all` and `WalkDir` are modelled on
this structure, with the error behaviour of the real calls (writing over
a directory, reading a directory, creating a directory chain through a
file, and removing a missing directory all fail). -/

structure FS where
  files : List (FsPath × String)
  dirs : List FsPath
deriving DecidableEq

/-- First-match association lookup over the file list. -/
def lookupFile : List (FsPath × String) → FsPath → Option String
  | [], _ => none
  | (q, v) :: rest, p => if q = p then some v else lookupFile rest p

/-- The content of the regular file at `p`, if one exists. -/
def FS.isFile (fs : FS) (p : FsPath) : Option String := lookupFile fs.files p

/-- Whether a directory exists at `p`. -/
def FS.isDir (fs : FS) (p : FsPath) : Bool := decide (p ∈ fs.dirs)

/-- Rust `Path::exists`: true if any filesystem entry (file or directory) is at
`p`. -/
def FS.pathExists (fs : FS) (p : FsPath) : Bool := (fs.isFile p).isSome || fs.isDir p

/-- Rust `fs::create_dir_all`: creates the directory and all its ancestors;
fails if a regular file occupies any of them. -/
def FS.mkdirAll (fs : FS) (d : FsPath) : Except DSError FS :=
  if d.inits.any (fun q => (fs.isFile q).isSome) then
    .error (.Io d)
  else
    .ok { fs with dirs := d.inits ++ fs.dirs }

/-- Rust `fs::write`: replaces the content of the file at `p`; fails if a
directory is at `p`. -/
def FS.writeFile (fs : FS) (p : FsPath) (v : String) : Except DSError FS :=
  if fs.isDir p then
    .error (.Io p)
  else
    .ok { fs with files := (p, v) :: fs.files.filter (fun e => decide (e.1 ≠ p)) }

/-- Rust `fs::remove_dir_all`: removes the directory at `p` and everything under
it; fails if no directory is at `p` (as the real call does on a missing or
non-directory path). -/
def FS.removeDirAll (fs : FS) (p : FsPath) : Except DSError FS :=
  if fs.isDir p then
    .ok { files := fs.files.filter (fun e => decide (¬ p <+: e.1)),
          dirs := fs.dirs.filter (fun d => decide (¬ p <+: d)) }
  else
    .error (.Io p)

/-- A directory entry seen by the `WalkDir` walk. -/
inductive FsEntry
  | file (path : FsPath) (content : String)
  | dir (path : FsPath)
deriving DecidableEq

/-- The recursive walk of everything at or under `base` (symlinks and
foreign filesystems do not exist in the model). -/
def FS.walk (fs : FS) (base : FsPath) : List FsEntry :=
  fs.files.filterMap (fun e => if base <+: e.1 then some (.file e.1 e.2) else none)
    ++ fs.dirs.filterMap (fun d => if base <+: d then some (.dir d) else none)

/-! ## FilesystemDataStore (`datastore/filesystem.rs`) -/

structure FilesystemDataStore where
  live_path : FsPath
  pending_path : FsPath
deriving DecidableEq

/-- The constructor `FilesystemDataStore::new`. -/
def FilesystemDataStore.new (base_path : FsPath) : FilesystemDataStore :=
  { live_path := base_path ++ ["live".toList],
    pending_path := base_path ++ ["pending".toList] }

/-- The scope enum `datastore::Committed` — the two scopes. -/
inductive Committed
  | Live
  | Pending
deriving DecidableEq

/-- The scope-root helper `FilesystemDataStore::base_path`. -/
def FilesystemDataStore.base_path (ds : FilesystemDataStore) (committed : Committed) : FsPath :=
  match committed with
  | .Pending => ds.pending_path
  | .Live => ds.live_path

/-- Separators: `KEY_SEPARATOR` is `.`; `path::MAIN_SEPARATOR` is `/` on the target OS. -/
def sepChar : Char := '/'

/-- Rust `Path::new(s).components()`: split on the separator, dropping empty
components. -/
def splitPath (s : List Char) : FsPath :=
  (s.splitOn sepChar).filter (fun seg => decide (seg ≠ []))

/-- Rust `PathBuf::join`: an absolute suffix replaces the base, a relative one
extends it component-wise. -/
def pathJoin (base : FsPath) (suffix : List Char) : FsPath :=
  if suffix.head? = some sepChar then splitPath suffix else base ++ splitPath suffix

/-- The string-level body of `FilesystemDataStore::data_path`: turn the
dot-separated key text into a slash-separated path suffix, join it to the
scope's base path, and reject any result that is the base path itself or
escapes it. -/
def data_path_raw (basePath : FsPath) (name : List Char) : Except DSError FsPath :=
  let path_suffix := name.map (fun c => if c = '.' then sepChar else c)
  let path := pathJoin basePath path_suffix
  if path ≠ basePath ∧ basePath <+: path then .ok path else .error (.PathTraversal name)

/-- The path mapping `FilesystemDataStore::data_path`. -/
def FilesystemDataStore.data_path (ds : FilesystemDataStore) (key : Key)
    (committed : Committed) : Except DSError FsPath :=
  data_path_raw (ds.base_path committed) key.name

/-- The path mapping `FilesystemDataStore::metadata_path`: the data path with `.` and the
metadata key appended to its final component. -/
def FilesystemDataStore.metadata_path (ds : FilesystemDataStore) (metadata_key : Key)
    (data_key : Key) (committed : Committed) : Except DSError FsPath :=
  match ds.data_path data_key committed with
  | .error e => .error e
  | .ok p =>
    match p.getLast? with
    | none => .error .Internal
    | some basename => .ok (p.dropLast ++ [basename ++ '.' :: metadata_key.name])

/-- The helper `read_file_for_key`: `Ok(None)` when the file is absent, the content
when present, an error when the path is occupied by a directory. -/
def read_file_for_key (fs : FS) (p : FsPath) : Except DSError (Option String) :=
  match fs.isFile p with
  | some s => .ok (some s)
  | none => if fs.isDir p then .error (.Io p) else .ok none

/-- The helper `write_file_mkdir`: create the parent directory chain, then write. -/
def write_file_mkdir (fs : FS) (p : FsPath) (v : String) : Except DSError FS :=
  if p = [] then
    .error .Internal
  else
    match fs.mkdirAll p.dropLast with
    | .error e => .error e
    | .ok fs₁ => fs₁.writeFile p v

/-- The walk filter `data_key_for_entry`: a walked entry is a data key iff it is a regular
file whose name alone is a valid single-segment (Meta-kind) key; its key
text is the path relative to `base` with `/` replaced by `.`. -/
def data_key_for_entry (entry : FsEntry) (base : FsPath) : Except DSError (Option Key) :=
  match entry with
  | .dir _ => .ok none
  | .file p _ =>
    match p.getLast? with
    | none => .error .PathStrip
    | some filename =>
      match Key.new .Meta filename with
      | .error _ => .ok none
      | .ok _ =>
        if base <+: p then
          let key_path := p.drop base.length
          let key_name := keyName key_path
          match Key.new .Data key_name with
          | .error e => .error e
          | .ok key => .ok (some key)
        else .error .PathStrip

/-- The operation `DataStore::key_populated` for the filesystem store. -/
def FilesystemDataStore.key_populated (ds : FilesystemDataStore) (key : Key)
    (committed : Committed) (fs : FS) : Except DSError Bool := do
  let path ← ds.data_path key committed
  .ok (fs.pathExists path)

/-- The accumulation loop of `list_populated_keys` (`HashSet` inserts,
rendered as an order-preserving deduplicating accumulator). -/
def collect_keys (base : FsPath) : List FsEntry → List Key → Except DSError (List Key)
  | [], acc => .ok acc
  | entry :: rest, acc =>
    match data_key_for_entry entry base with
    | .error e => .error e
    | .ok none => collect_keys base rest acc
    | .ok (some key) =>
      collect_keys base rest (if key ∈ acc then acc else acc ++ [key])

/-- The operation `DataStore::list_populated_keys` for the filesystem store: an absent
pending scope lists as empty, an absent live scope is a corruption error;
otherwise walk the scope and keep the keys whose dotted text starts with
the (textual, not segment-aligned) prefix. -/
def FilesystemDataStore.list_populated_keys (ds : FilesystemDataStore) (pfx : List Char)
    (committed : Committed) (fs : FS) : Except DSError (List Key) :=
  let base := ds.base_path committed
  if fs.pathExists base then
    match collect_keys base (fs.walk base) [] with
    | .error e => .error e
    | .ok keys => .ok (keys.filter (fun k => decide (pfx <+: k.name)))
  else
    match committed with
    | .Live => .error (.Corruption base)
    | .Pending => .ok []

/-- The operation `DataStore::get_key` for the filesystem store. -/
def FilesystemDataStore.get_key (ds : FilesystemDataStore) (key : Key)
    (committed : Committed) (fs : FS) : Except DSError (Option String) := do
  let path ← ds.data_path key committed
  read_file_for_key fs path

/-- The operation `DataStore::set_key` for the filesystem store. -/
def FilesystemDataStore.set_key (ds : FilesystemDataStore) (key : Key) (value : String)
    (committed : Committed) (fs : FS) : Except DSError FS := do
  let path ← ds.data_path key committed
  write_file_mkdir fs path value

/-- The operation `DataStore::get_metadata_raw` for the filesystem store (metadata lives
only in the Live scope). -/
def FilesystemDataStore.get_metadata_raw (ds : FilesystemDataStore) (metadata_key : Key)
    (data_key : Key) (fs : FS) : Except DSError (Option String) :=
  match ds.metadata_path metadata_key data_key .Live with
  | .error e => .error e
  | .ok path => read_file_for_key fs path

/-- Modelled from the spec: `set_keys` (a datastore trait default method,
not among the sources) writes each pair with `set_key`, failing fast on
the first error. -/
def FilesystemDataStore.set_keys (ds : FilesystemDataStore) :
    List (Key × String) → Committed → FS → Except DSError FS
  | [], _, fs => .ok fs
  | (k, v) :: rest, committed, fs =>
    match ds.set_key k v committed fs with
    | .error e => .error e
    | .ok fs₁ => ds.set_keys rest committed fs₁

/-- The value-collection loop of `get_prefix`. -/
def collect_pairs (ds : FilesystemDataStore) (committed : Committed) (fs : FS) :
    List Key → List (Key × String) → Except DSError (List (Key × String))
  | [], acc => .ok acc
  | k :: rest, acc =>
    match ds.get_key k committed fs with
    | .error e => .error e
    | .ok none => collect_pairs ds committed fs rest acc
    | .ok (some v) => collect_pairs ds committed fs rest (acc ++ [(k, v)])

/-- Modelled from the spec: `get_prefix` (a datastore trait default method,
not among the sources) returns the mapping from each populated data key
under the given textual prefix to its stored value, via
`list_populated_keys` and `get_key`. -/
def FilesystemDataStore.getPrefixPairs (ds : FilesystemDataStore) (pfx : List Char)
    (committed : Committed) (fs : FS) : Except DSError (List (Key × String)) :=
  match ds.list_populated_keys pfx committed fs with
  | .error e => .error e
  | .ok keys => collect_pairs ds committed fs keys []

/-- The dotted prefix `"settings."` used by `commit`. -/
def settingsDot : List Char := "settings.".toList

/-- The operation `FilesystemDataStore::commit`: read the pending data under
`"settings."`, write it to the live scope, remove the whole pending
directory, and return the pending keys.  (The re-validation of the pending
key strings through `Key::new` is the identity here because the modelled
`get_prefix` already returns `Key`-keyed pairs.) -/
def FilesystemDataStore.commit (ds : FilesystemDataStore) (fs : FS) :
    Except DSError (List Key × FS) :=
  match ds.getPrefixPairs settingsDot .Pending fs with
  | .error e => .error e
  | .ok pending_data =>
    let pending_keys := pending_data.map (fun e => e.1)
    match ds.set_keys pending_data .Live fs with
    | .error e => .error e
    | .ok fs₁ =>
      match fs₁.removeDirAll ds.pending_path with
      | .error e => .error e
      | .ok fs₂ => .ok (pending_keys, fs₂)

/-! ## Concrete stores used for witnesses and counterexamples -/

def pendingSeg : Seg := "pending".toList

def liveSeg : Seg := "live".toList

def settingsSeg : Seg := "settings".toList

def hostnameSeg : Seg := "hostname".toList

def fooSeg : Seg := "foo".toList

/-- A store rooted at `/b`. -/
def dsX : FilesystemDataStore := FilesystemDataStore.new [['b']]

def hostKey : Key := ⟨[settingsSeg, hostnameSeg], by decide⟩

def fooKey : Key := ⟨[fooSeg], by decide⟩

def aKey : Key := ⟨[['a']], by decide⟩

def axKey : Key := ⟨[['a'], ['x']], by decide⟩

/-- Pending holds only the non-settings key `foo`. -/
def fsX : FS :=
  { files := [([['b'], pendingSeg, fooSeg], "v")],
    dirs := [[], [['b']], [['b'], pendingSeg], [['b'], liveSeg]] }

/-- The state `fsX` after its commit: pending removed, nothing promoted. -/
def fsX₂ : FS :=
  { files := [],
    dirs := [[], [['b']], [['b'], liveSeg]] }

/-- Pending holds the settings key `settings.hostname`. -/
def fsW : FS :=
  { files := [([['b'], pendingSeg, settingsSeg, hostnameSeg], "\"h\"")],
    dirs := [[], [['b']], [['b'], pendingSeg], [['b'], pendingSeg, settingsSeg],
      [['b'], liveSeg]] }

/-- The keys returned by the commit of `fsW`. -/
def ksW : List Key :=
  match dsX.commit fsW with
  | .ok r => r.1
  | .error _ => []

/-- The post-commit state of `fsW`. -/
def fsW₂ : FS :=
  match dsX.commit fsW with
  | .ok r => r.2
  | .error _ => fsW

/-- Live holds `settings.hostname`, with a well-formed directory tree. -/
def fs3 : FS :=
  { files := [([['b'], liveSeg, settingsSeg, hostnameSeg], "\"h\"")],
    dirs := [[], [['b']], [['b'], liveSeg], [['b'], liveSeg, settingsSeg]] }

/-- The result of listing `fs3` under the partial-segment prefix "sett". -/
def ks3 : List Key :=
  match dsX.list_populated_keys ("sett".toList) .Live fs3 with
  | .ok ks => ks
  | .error _ => []

/-- Live holds a data file only at `a/x`; `a` itself is a bare directory. -/
def fsC : FS :=
  { files := [([['b'], liveSeg, ['a'], ['x']], "v")],
    dirs := [[], [['b']], [['b'], liveSeg], [['b'], liveSeg, ['a']]] }

/-- An empty filesystem: neither scope directory exists. -/
def fsE : FS := { files := [], dirs := [] }

/-! ## Controller layer (`server/controller/mod.rs`)

JSON values are modelled structurally; a raw JSON input string is modelled
as `Option Json` (`none` for text that fails JSON parsing). -/

/-- A JSON value (`serde_json::Value`). -/
inductive Json
  | null
  | bool (b : Bool)
  | num (n : Int)
  | str (s : String)
  | arr (elems : List Json)
  | obj (fields : List (String × Json))

/-- Controller error taxonomy (`server/controller/error.rs`), payloads
reduced to what the claims inspect. -/
inductive CtrlError
  | NewKey (name : List Char)
  | InvalidMetadata (name : List Char)
  | InvalidJson
  | NotJsonObject
  | NoSettings
  | InvalidSettings
deriving DecidableEq

/-- Modelled from the spec: the typed Settings record (`model::Settings`,
not among the sources), restricted to representative optional scalar
fields; absence is legal and meaningful. -/
structure Settings where
  hostname : Option String
  timezone : Option String
deriving DecidableEq

/-- Modelled from the spec: strict decoding of one Settings field; an
unknown key under the typed record is an error (strict schema). -/
def setField (s : Settings) (name : String) (v : Json) : Option Settings :=
  if name = "hostname" then
    match v with
    | .null => some { s with hostname := none }
    | .str x => some { s with hostname := some x }
    | _ => none
  else if name = "timezone" then
    match v with
    | .null => some { s with timezone := none }
    | .str x => some { s with timezone := some x }
    | _ => none
  else none

def decodeFields : Settings → List (String × Json) → Option Settings
  | s, [] => some s
  | s, (n, v) :: rest =>
    match setField s n v with
    | some s' => decodeFields s' rest
    | none => none

/-- Modelled from the spec: `serde_json` deserialization of a `Settings`
from a JSON value — a record with optional fields and a strict schema. -/
def decodeSettings (j : Json) : Option Settings :=
  match j with
  | .obj fields => decodeFields { hostname := none, timezone := none } fields
  | _ => none

/-- A raw JSON input string: `none` models text that is not valid JSON. -/
abbrev JsonInput := Option Json

/-- First-match field lookup on a JSON object (`Map::get`). -/
def lookupField : List (String × Json) → String → Option Json
  | [], _ => none
  | (n, v) :: rest, name => if n = name then some v else lookupField rest name

/-- The controller operation `settings_input`: try to decode the input as a Settings
directly; on failure re-parse as generic JSON, unwrap a top-level
`"settings"` field, and try again. -/
def settings_input (input : JsonInput) : Except CtrlError Settings :=
  match input with
  | none => .error .InvalidJson
  | some val =>
    match decodeSettings val with
    | some x => .ok x
    | none =>
      match val with
      | .obj fields =>
        match lookupField fields ("settings") with
        | some inner =>
          match decodeSettings inner with
          | some s => .ok s
          | none => .error .InvalidSettings
        | none => .error .NoSettings
      | _ => .error .NotJsonObject

/-- Modelled from the spec: `deserialize_scalar` — the JSON scalar form
(`datastore::serialization`, not among the sources); simplified to quoted
strings without escapes, integer/boolean/null literals. -/
def deserialize_scalar (s : String) : Option Json :=
  let cs := s.toList
  if 2 ≤ cs.length ∧ cs.head? = some '"' ∧ cs.getLast? = some '"' then
    some (.str (String.mk ((cs.drop 1).dropLast)))
  else if s = "true" then some (.bool true)
  else if s = "false" then some (.bool false)
  else if s = "null" then some .null
  else (s.toInt?).map Json.num

/-- The per-data-key loop of `controller::get_metadata`, generic over the
datastore's metadata reader (the controller is generic over
`D: DataStore`). -/
def get_metadata_loop (getmd : Key → Key → Except DSError (Option String)) (md_key : Key) :
    List (List Char) → List (List Char × Json) → Except CtrlError (List (List Char × Json))
  | [], data => .ok data
  | data_key_str :: rest, data =>
    match Key.new .Data data_key_str with
    | .error _ => .error (.NewKey data_key_str)
    | .ok data_key =>
      match getmd md_key data_key with
      | .ok (some value_str) =>
        match deserialize_scalar value_str with
        | some value =>
          get_metadata_loop getmd md_key rest (data ++ [(data_key_str, value)])
        | none => .error (.InvalidMetadata md_key.name)
      | .ok none => get_metadata_loop getmd md_key rest data
      | .error _ => get_metadata_loop getmd md_key rest data

/-- The controller operation `get_metadata`: per-data-key metadata reads, skipping
absent metadata and read errors. -/
def get_metadata (getmd : Key → Key → Except DSError (Option String))
    (md_key_str : List Char) (data_key_strs : List (List Char)) :
    Except CtrlError (List (List Char × Json)) :=
  match Key.new .Meta md_key_str with
  | .error _ => .error (.NewKey md_key_str)
  | .ok md_key => get_metadata_loop getmd md_key data_key_strs []

/-! ## Config materializer (`thar-be-settings/src/config.rs`) -/

/-- Modelled from the spec: a configuration-file descriptor
(`model::ConfigurationFile`, not among the sources): a target `path` and a
`template_path`. -/
structure ConfigurationFile where
  path : String
  template_path : String
deriving DecidableEq

/-- The collection `model::ConfigurationFiles`: named descriptors (map iteration order
modelled as a list). -/
abbrev ConfigurationFiles := List (String × ConfigurationFile)

inductive RenderError
  | TemplateRender (template : String)
deriving DecidableEq

structure RenderedConfigFile where
  path : String
  rendered : String
deriving DecidableEq

/-- The constructor `RenderedConfigFile::new`. -/
def RenderedConfigFile.new (path : String) (rendered : String) : RenderedConfigFile :=
  { path := path, rendered := rendered }

/-- The rendering loop of `render_config_files`; the handlebars registry is
abstracted as a function from template name and context to an optional
rendered string (`none` models a render error). -/
def render_loop (registry : String → List (String × Settings) → Option String)
    (wrapped_template_keys : List (String × Settings)) :
    ConfigurationFiles → List RenderedConfigFile → Except RenderError (List RenderedConfigFile)
  | [], rendered_configs => .ok rendered_configs
  | (name, metadata) :: rest, rendered_configs =>
    match registry name wrapped_template_keys with
    | none => .error (.TemplateRender name)
    | some rendered =>
      render_loop registry wrapped_template_keys rest
        (rendered_configs ++ [RenderedConfigFile.new metadata.path rendered])

/-- The materializer `render_config_files`: wrap the Settings under the single key
`"settings"` and render every descriptor's template against that
context. -/
def render_config_files (registry : String → List (String × Settings) → Option String)
    (config_files : ConfigurationFiles) (settings : Settings) :
    Except RenderError (List RenderedConfigFile) :=
  let wrapped_template_keys : List (String × Settings) := [("settings", settings)]
  render_loop registry wrapped_template_keys config_files []

/-! ## Concrete controller inputs used by the witnesses -/

def abcKey : Key := ⟨["abc".toList], by decide⟩

def defghKey : Key := ⟨["defgh".toList], by decide⟩

def myMetaTL : List Char := "my-meta".toList

def mk6 : Key := ⟨[myMetaTL], by decide⟩

/-- A metadata reader with one present value, one absent value, and one
read error. -/
def getmd6 (_ : Key) (k : Key) : Except DSError (Option String) :=
  if k = abcKey then .ok (some ("\"x\""))
  else if k = defghKey then .ok none
  else .error (.Io [])

def jsonW : Json := Json.obj [("timezone", Json.str ("tz"))]

def settingsW : Settings := { hostname := none, timezone := some ("tz") }

/-! ### Basic facts about segments and joined names -/

theorem validSegment_ne_nil {s : Seg} (h : validSegment s = true) : s ≠ [] := by
  unfold validSegment at h
  exact of_decide_eq_true (Bool.and_elim_left h)

theorem validSegment_chars {s : Seg} (h : validSegment s = true) :
    ∀ c ∈ s, validKeyChar c = true := by
  unfold validSegment at h
  exact fun c hc => List.all_eq_true.mp (Bool.and_elim_right h) c hc

theorem validSegment_not_mem {s : Seg} (h : validSegment s = true) {c : Char}
    (hc : validKeyChar c = false) : c ∉ s := by
  intro hmem
  have := validSegment_chars h c hmem
  rw [hc] at this
  exact Bool.noConfusion this

theorem validKeyChar_dot : validKeyChar '.' = false := by decide

theorem validKeyChar_slash : validKeyChar '/' = false := by decide

theorem joinSep_eq_intercalate (sep : Char) (segs : List Seg) :
    joinSep sep segs = List.intercalate [sep] segs := by
  induction segs with
  | nil => simp [joinSep, List.intercalate]
  | cons s rest ih =>
    cases rest with
    | nil => simp [joinSep, List.intercalate]
    | cons s' rest' =>
      rw [joinSep, ih]
      simp [List.intercalate, List.intersperse_cons_cons]

/-- Splitting a joined name on the separator recovers the segments, provided
no segment contains the separator. -/
theorem splitOn_joinSep {sep : Char} {segs : List Seg}
    (hne : segs ≠ []) (hsep : ∀ s ∈ segs, sep ∉ s) :
    (joinSep sep segs).splitOn sep = segs := by
  rw [joinSep_eq_intercalate]
  exact List.splitOn_intercalate segs sep hsep hne

theorem keyName_splitOn {segs : List Seg} (hne : segs ≠ [])
    (hv : ∀ s ∈ segs, validSegment s = true) :
    (keyName segs).splitOn '.' = segs :=
  splitOn_joinSep hne (fun s hs => validSegment_not_mem (hv s hs) validKeyChar_dot)

theorem joinSep_map (f : Char → Char) (sep : Char) (segs : List Seg) :
    (joinSep sep segs).map f = joinSep (f sep) (segs.map (List.map f)) := by
  induction segs with
  | nil => simp [joinSep]
  | cons s rest ih =>
    cases rest with
    | nil => simp [joinSep]
    | cons s' rest' =>
      simp only [joinSep, List.map_append, List.map_cons, List.map]
      rw [ih]
      rfl

theorem map_eq_self_of_mem {f : Char → Char} {s : List Char}
    (h : ∀ c ∈ s, f c = c) : s.map f = s := by
  induction s with
  | nil => rfl
  | cons c rest ih =>
    simp only [List.map_cons, h c (List.mem_cons_self c rest),
      ih (fun x hx => h x (List.mem_cons_of_mem c hx))]

theorem length_le_keyName {segs : List Seg} {s : Seg} (hs : s ∈ segs) :
    s.length ≤ (keyName segs).length := by
  unfold keyName
  induction segs with
  | nil => cases hs
  | cons a rest ih =>
    cases rest with
    | nil =>
      rcases List.mem_singleton.mp hs with rfl
      exact Nat.le_refl _
    | cons b rest' =>
      rw [joinSep]
      rcases List.mem_cons.mp hs with rfl | hmem
      · simp only [List.length_append, List.length_cons]
        omega
      · have := ih hmem
        simp only [List.length_append, List.length_cons]
        omega

theorem joinSep_head? {sep : Char} {s : Seg} {rest : List Seg} (hne : s ≠ []) :
    (joinSep sep (s :: rest)).head? = s.head? := by
  cases rest with
  | nil => rfl
  | cons s' rest' =>
    rw [joinSep, List.head?_append_of_ne_nil _ hne]

/-- Parsing with `Key.new .Data` on the dotted text of a valid key's segments recovers
exactly those segments. -/
theorem Key.new_keyName {segs : List Seg} (h : KeyOK segs) :
    Key.new .Data (keyName segs) = .ok ⟨segs, h⟩ := by
  obtain ⟨hne, hval, hlen⟩ := h
  unfold Key.new
  have hsplit : (keyName segs).splitOn '.' = segs := keyName_splitOn hne hval
  have hok : KeyOK segs := ⟨hne, hval, hlen⟩
  rw [hsplit]
  simp [hok]

/-- Parsing with `Key.new .Meta` accepts exactly the valid single segments, recovering the
segment itself. -/
theorem Key.new_meta_of_validSegment {s : Seg} (hv : validSegment s = true)
    (hlen : s.length < 4096) :
    ∃ h : KeyOK [s], Key.new .Meta s = .ok ⟨[s], h⟩ := by
  have hsplit : s.splitOn '.' = [s] := by
    have h0 : (joinSep '.' [s]).splitOn '.' = [s] := splitOn_joinSep (by simp)
      (by simpa using validSegment_not_mem hv validKeyChar_dot)
    simpa [joinSep] using h0
  have hok : KeyOK [s] := by
    refine ⟨by simp, by simpa using hv, ?_⟩
    simpa [keyName, joinSep] using hlen
  refine ⟨hok, ?_⟩
  unfold Key.new
  rw [hsplit]
  simp [hok]

/-! ## Path-mapping lemmas -/

theorem keyOK_segs (k : Key) : KeyOK k.segs := k.property

theorem key_segs_ne_nil (k : Key) : k.segs ≠ [] := k.property.1

theorem key_segs_valid (k : Key) : ∀ s ∈ k.segs, validSegment s = true := k.property.2.1

/-- Replacing `.` by `/` in the dotted text of valid segments gives the
slash-joined text of the same segments. -/
theorem map_dot_keyName {segs : List Seg} (hv : ∀ s ∈ segs, validSegment s = true) :
    (keyName segs).map (fun c => if c = '.' then sepChar else c) = joinSep '/' segs := by
  unfold keyName
  rw [joinSep_map]
  have hdot : (if ('.' : Char) = '.' then sepChar else '.') = '/' := by simp [sepChar]
  rw [hdot]
  congr 1
  have : ∀ s ∈ segs, s.map (fun c => if c = '.' then sepChar else c) = s := by
    intro s hs
    apply map_eq_self_of_mem
    intro c hc
    have hvc := validSegment_chars (hv s hs) c hc
    have : c ≠ '.' := by
      intro h
      rw [h, validKeyChar_dot] at hvc
      exact Bool.noConfusion hvc
    simp [this]
  calc segs.map (List.map fun c => if c = '.' then sepChar else c)
      = segs.map id := List.map_congr_left (fun s hs => this s hs)
    _ = segs := List.map_id segs

/-- Splitting the slash-joined text of valid segments on `/` recovers the
segments. -/
theorem splitPath_joinSep {segs : List Seg} (hne : segs ≠ [])
    (hv : ∀ s ∈ segs, validSegment s = true) :
    splitPath (joinSep '/' segs) = segs := by
  unfold splitPath
  have hsep : ∀ s ∈ segs, sepChar ∉ s := fun s hs =>
    validSegment_not_mem (hv s hs) validKeyChar_slash
  have : joinSep '/' segs = joinSep sepChar segs := rfl
  rw [this, splitOn_joinSep hne hsep]
  apply List.filter_eq_self.mpr
  intro s hs
  exact decide_eq_true (validSegment_ne_nil (hv s hs))

/-- The slash-joined text of valid segments does not start with `/`. -/
theorem joinSep_head_ne_slash {segs : List Seg} (hne : segs ≠ [])
    (hv : ∀ s ∈ segs, validSegment s = true) :
    (joinSep '/' segs).head? ≠ some sepChar := by
  obtain ⟨s, rest, rfl⟩ := List.exists_cons_of_ne_nil hne
  have hs : validSegment s = true := hv s (List.mem_cons_self s rest)
  rw [joinSep_head? (validSegment_ne_nil hs)]
  intro h
  have hmem : sepChar ∈ s := by
    cases hhead : s.head? with
    | none => rw [hhead] at h; exact Option.noConfusion h
    | some c =>
      rw [hhead] at h
      obtain rfl : c = sepChar := Option.some.inj h
      exact List.mem_of_mem_head? (by rw [hhead]; rfl)
  exact validSegment_not_mem hs validKeyChar_slash hmem

/-- The function `data_path` maps a valid key `a.b.c` in scope `S` to
`<base>/<S>/a/b/c`. -/
theorem pathJoin_joinSep (base : FsPath) {segs : List Seg} (hne : segs ≠ [])
    (hv : ∀ s ∈ segs, validSegment s = true) :
    pathJoin base (joinSep '/' segs) = base ++ segs := by
  unfold pathJoin
  rw [if_neg (joinSep_head_ne_slash hne hv), splitPath_joinSep hne hv]

theorem data_path_ok (ds : FilesystemDataStore) (k : Key) (c : Committed) :
    ds.data_path k c = .ok (ds.base_path c ++ k.segs) := by
  unfold FilesystemDataStore.data_path data_path_raw
  have hmap : (k.name).map (fun ch => if ch = '.' then sepChar else ch) = joinSep '/' k.segs :=
    map_dot_keyName (key_segs_valid k)
  simp only [hmap, pathJoin_joinSep (ds.base_path c) (key_segs_ne_nil k) (key_segs_valid k)]
  have hne : ds.base_path c ++ k.segs ≠ ds.base_path c := by
    intro h
    have : k.segs = [] := by
      have := h.trans (List.append_nil (ds.base_path c)).symm
      exact List.append_cancel_left this
    exact key_segs_ne_nil k this
  rw [if_pos ⟨hne, List.prefix_append _ _⟩]

/-- Reading with `get_key` of a valid key reads exactly the file at the key's data
path. -/
theorem get_key_eq (ds : FilesystemDataStore) (k : Key) (c : Committed) (fs : FS) :
    ds.get_key k c fs = read_file_for_key fs (ds.base_path c ++ k.segs) := by
  unfold FilesystemDataStore.get_key
  rw [data_path_ok]
  rfl

/-- Writing with `set_key` of a valid key writes exactly the file at the key's data
path. -/
theorem set_key_eq (ds : FilesystemDataStore) (k : Key) (v : String) (c : Committed) (fs : FS) :
    ds.set_key k v c fs = write_file_mkdir fs (ds.base_path c ++ k.segs) v := by
  unfold FilesystemDataStore.set_key
  rw [data_path_ok]
  rfl

/-! ## Filesystem operation lemmas -/

theorem lookupFile_eq_none {l : List (FsPath × String)} {p : FsPath} :
    lookupFile l p = none ↔ ∀ v, (p, v) ∉ l := by
  induction l with
  | nil => simp [lookupFile]
  | cons e rest ih =>
    obtain ⟨q, w⟩ := e
    unfold lookupFile
    by_cases hq : q = p
    · subst hq
      simp only [if_pos rfl]
      constructor
      · intro h; exact Option.noConfusion h
      · intro h; exact absurd (List.mem_cons_self _ _) (h w)
    · rw [if_neg hq, ih]
      constructor
      · intro h v hv
        rcases List.mem_cons.mp hv with heq | hmem
        · exact hq (congrArg Prod.fst heq).symm
        · exact h v hmem
      · intro h v hv
        exact h v (List.mem_cons_of_mem _ hv)

theorem lookupFile_eq_some_mem {l : List (FsPath × String)} {p : FsPath} {v : String}
    (h : lookupFile l p = some v) : (p, v) ∈ l := by
  induction l with
  | nil => exact Option.noConfusion h
  | cons e rest ih =>
    obtain ⟨q, w⟩ := e
    unfold lookupFile at h
    by_cases hq : q = p
    · subst hq
      rw [if_pos rfl] at h
      obtain rfl : w = v := Option.some.inj h
      exact List.mem_cons_self _ _
    · rw [if_neg hq] at h
      exact List.mem_cons_of_mem _ (ih h)

theorem lookupFile_filter_of_keep {l : List (FsPath × String)} {p : FsPath}
    {f : FsPath × String → Bool} (hf : ∀ v, f (p, v) = true) :
    lookupFile (l.filter f) p = lookupFile l p := by
  induction l with
  | nil => rfl
  | cons e rest ih =>
    obtain ⟨q, w⟩ := e
    by_cases hq : q = p
    · subst hq
      rw [List.filter_cons, if_pos (hf w)]
      simp [lookupFile]
    · rw [List.filter_cons]
      by_cases hkeep : f (q, w) = true
      · rw [if_pos hkeep]
        simp only [lookupFile, if_neg hq]
        exact ih
      · rw [if_neg hkeep, ih]
        simp only [lookupFile, if_neg hq]

theorem lookupFile_filter_of_dropped {l : List (FsPath × String)} {p : FsPath}
    {f : FsPath × String → Bool} (hf : ∀ v, f (p, v) = false) :
    lookupFile (l.filter f) p = none := by
  rw [lookupFile_eq_none]
  intro v hv
  have := List.of_mem_filter hv
  rw [hf v] at this
  exact Bool.noConfusion this

theorem FS.mkdirAll_ok {fs fs₁ : FS} {d : FsPath} (h : fs.mkdirAll d = .ok fs₁) :
    fs₁.files = fs.files ∧ fs₁.dirs = d.inits ++ fs.dirs := by
  unfold FS.mkdirAll at h
  by_cases hc : (d.inits.any fun q => (fs.isFile q).isSome) = true
  · rw [if_pos hc] at h; exact Except.noConfusion h
  · rw [if_neg hc] at h
    obtain rfl : _ = fs₁ := Except.ok.inj h
    exact ⟨rfl, rfl⟩

theorem FS.mkdirAll_ok_no_file {fs fs₁ : FS} {d : FsPath} (h : fs.mkdirAll d = .ok fs₁) :
    ∀ q, q <+: d → fs.isFile q = none := by
  intro q hq
  unfold FS.mkdirAll at h
  by_cases hc : (d.inits.any fun q => (fs.isFile q).isSome) = true
  · rw [if_pos hc] at h; exact Except.noConfusion h
  · rw [List.any_eq_true] at hc
    push_neg at hc
    have := hc q ((List.mem_inits q d).mpr hq)
    cases hfile : fs.isFile q with
    | none => rfl
    | some s => rw [hfile] at this; exact absurd rfl this

theorem FS.writeFile_ok {fs fs₂ : FS} {p : FsPath} {v : String}
    (h : fs.writeFile p v = .ok fs₂) :
    fs₂.dirs = fs.dirs ∧ fs₂.isFile p = some v ∧ ∀ q, q ≠ p → fs₂.isFile q = fs.isFile q := by
  unfold FS.writeFile at h
  by_cases hdir : fs.isDir p = true
  · rw [if_pos hdir] at h; exact Except.noConfusion h
  · rw [if_neg hdir] at h
    obtain rfl : _ = fs₂ := Except.ok.inj h
    refine ⟨rfl, ?_, ?_⟩
    · show lookupFile _ _ = _
      simp [lookupFile]
    · intro q hq
      show lookupFile _ _ = _
      simp only [lookupFile, if_neg (fun hpq : p = q => hq hpq.symm)]
      exact lookupFile_filter_of_keep (fun w => decide_eq_true hq)

theorem write_file_mkdir_ok {fs fs' : FS} {p : FsPath} {v : String}
    (h : write_file_mkdir fs p v = .ok fs') :
    fs'.isFile p = some v ∧ (∀ q, q ≠ p → fs'.isFile q = fs.isFile q) ∧
      fs'.dirs = p.dropLast.inits ++ fs.dirs := by
  unfold write_file_mkdir at h
  by_cases hp : p = []
  · rw [if_pos hp] at h
    exact Except.noConfusion h
  · rw [if_neg hp] at h
    cases hmk : fs.mkdirAll p.dropLast with
    | error e => rw [hmk] at h; exact Except.noConfusion h
    | ok fs₁ =>
      rw [hmk] at h
      obtain ⟨hfiles, hdirs⟩ := FS.mkdirAll_ok hmk
      obtain ⟨hd₂, hp₂, hq₂⟩ := FS.writeFile_ok h
      refine ⟨hp₂, ?_, hd₂.trans hdirs⟩
      intro q hq
      rw [hq₂ q hq]
      show lookupFile _ _ = lookupFile _ _
      rw [hfiles]

/-- A failed parent-chain creation means some ancestor holds a file. -/
theorem write_file_mkdir_ok_no_ancestor_file {fs fs' : FS} {p : FsPath} {v : String}
    (h : write_file_mkdir fs p v = .ok fs') :
    ∀ q, q <+: p.dropLast → fs.isFile q = none := by
  unfold write_file_mkdir at h
  by_cases hp : p = []
  · rw [if_pos hp] at h
    exact Except.noConfusion h
  · rw [if_neg hp] at h
    cases hmk : fs.mkdirAll p.dropLast with
    | error e => rw [hmk] at h; exact Except.noConfusion h
    | ok fs₁ => exact FS.mkdirAll_ok_no_file hmk

theorem FS.removeDirAll_ok_isDir {fs fs' : FS} {p : FsPath}
    (h : fs.removeDirAll p = .ok fs') : fs.isDir p = true := by
  unfold FS.removeDirAll at h
  by_cases hdir : fs.isDir p = true
  · exact hdir
  · rw [if_neg hdir] at h; exact Except.noConfusion h

theorem FS.removeDirAll_ok_removed {fs fs' : FS} {p : FsPath}
    (h : fs.removeDirAll p = .ok fs') :
    ∀ q, p <+: q → fs'.pathExists q = false := by
  unfold FS.removeDirAll at h
  rw [if_pos (FS.removeDirAll_ok_isDir h)] at h
  obtain rfl : _ = fs' := Except.ok.inj h
  intro q hq
  unfold FS.pathExists FS.isDir FS.isFile
  rw [lookupFile_filter_of_dropped (fun v => decide_eq_false (fun hn => hn hq))]
  simp only [Option.isSome_none, Bool.false_or]
  rw [decide_eq_false]
  intro hmem
  have := List.of_mem_filter hmem
  rw [decide_eq_false (fun hn => hn hq)] at this
  exact Bool.noConfusion this

theorem FS.removeDirAll_ok_frame {fs fs' : FS} {p : FsPath}
    (h : fs.removeDirAll p = .ok fs') :
    ∀ q, ¬ p <+: q → fs'.isFile q = fs.isFile q ∧ fs'.isDir q = fs.isDir q := by
  unfold FS.removeDirAll at h
  rw [if_pos (FS.removeDirAll_ok_isDir h)] at h
  obtain rfl : _ = fs' := Except.ok.inj h
  intro q hq
  constructor
  · exact lookupFile_filter_of_keep (fun v => decide_eq_true hq)
  · show decide _ = decide _
    by_cases hmem : q ∈ fs.dirs
    · rw [decide_eq_true hmem, decide_eq_true (List.mem_filter.mpr ⟨hmem, decide_eq_true hq⟩)]
    · rw [decide_eq_false hmem, decide_eq_false (fun hmf => hmem (List.mem_filter.mp hmf).1)]

theorem FS.walk_mem_file {fs : FS} {base p : FsPath} {v : String} :
    FsEntry.file p v ∈ fs.walk base ↔ ((p, v) ∈ fs.files ∧ base <+: p) := by
  unfold FS.walk
  rw [List.mem_append]
  constructor
  · intro h
    rcases h with hf | hd
    · obtain ⟨⟨q, w⟩, hmem, heq⟩ := List.mem_filterMap.mp hf
      by_cases hpre : base <+: q
      · rw [if_pos hpre] at heq
        obtain ⟨rfl, rfl⟩ : q = p ∧ w = v := by
          injection heq with h1
          exact ⟨by injection h1, by injection h1⟩
        exact ⟨hmem, hpre⟩
      · rw [if_neg hpre] at heq
        exact Option.noConfusion heq
    · obtain ⟨d, _, heq⟩ := List.mem_filterMap.mp hd
      by_cases hpre : base <+: d
      · rw [if_pos hpre] at heq
        injection heq with h1
        exact FsEntry.noConfusion h1
      · rw [if_neg hpre] at heq
        exact Option.noConfusion heq
  · intro ⟨hmem, hpre⟩
    left
    exact List.mem_filterMap.mpr ⟨(p, v), hmem, by rw [if_pos hpre]⟩

/-! ## Listing characterization -/

theorem collect_keys_ok_mem {base : FsPath} {entries : List FsEntry} {acc ks : List Key}
    (h : collect_keys base entries acc = .ok ks) (k : Key) :
    k ∈ ks ↔ (k ∈ acc ∨ ∃ e ∈ entries, data_key_for_entry e base = .ok (some k)) := by
  induction entries generalizing acc with
  | nil =>
    obtain rfl : acc = ks := Except.ok.inj h
    simp
  | cons e rest ih =>
    unfold collect_keys at h
    cases hk : data_key_for_entry e base with
    | error err => rw [hk] at h; exact Except.noConfusion h
    | ok r =>
      rw [hk] at h
      cases r with
      | none =>
        rw [ih h]
        constructor
        · rintro (hacc | ⟨e', he', hde⟩)
          · exact Or.inl hacc
          · exact Or.inr ⟨e', List.mem_cons_of_mem _ he', hde⟩
        · rintro (hacc | ⟨e', he', hde⟩)
          · exact Or.inl hacc
          · rcases List.mem_cons.mp he' with rfl | hmem
            · rw [hk] at hde
              injection hde with h1
              exact Option.noConfusion h1
            · exact Or.inr ⟨e', hmem, hde⟩
      | some key =>
        rw [ih h]
        have hmem_ite : k ∈ (if key ∈ acc then acc else acc ++ [key]) ↔ k ∈ acc ∨ k = key := by
          by_cases hin : key ∈ acc
          · rw [if_pos hin]
            constructor
            · exact Or.inl
            · rintro (ha | rfl)
              · exact ha
              · exact hin
          · rw [if_neg hin]
            simp [List.mem_append]
        rw [hmem_ite]
        constructor
        · rintro ((hacc | rfl) | ⟨e', he', hde⟩)
          · exact Or.inl hacc
          · exact Or.inr ⟨e, List.mem_cons_self _ _, hk⟩
          · exact Or.inr ⟨e', List.mem_cons_of_mem _ he', hde⟩
        · rintro (hacc | ⟨e', he', hde⟩)
          · exact Or.inl (Or.inl hacc)
          · rcases List.mem_cons.mp he' with rfl | hmem
            · rw [hk] at hde
              injection hde with h1
              exact Or.inl (Or.inr (Option.some.inj h1).symm)
            · exact Or.inr ⟨e', hmem, hde⟩

theorem list_populated_keys_ok_mem {ds : FilesystemDataStore} {pfx : List Char}
    {c : Committed} {fs : FS} {ks : List Key}
    (hex : fs.pathExists (ds.base_path c) = true)
    (h : ds.list_populated_keys pfx c fs = .ok ks) (k : Key) :
    k ∈ ks ↔ ((∃ e ∈ fs.walk (ds.base_path c),
        data_key_for_entry e (ds.base_path c) = .ok (some k)) ∧ pfx <+: k.name) := by
  unfold FilesystemDataStore.list_populated_keys at h
  rw [if_pos hex] at h
  cases hc : collect_keys (ds.base_path c) (fs.walk (ds.base_path c)) [] with
  | error e => rw [hc] at h; exact Except.noConfusion h
  | ok keys =>
    rw [hc] at h
    obtain rfl : keys.filter (fun k => decide (pfx <+: k.name)) = ks := Except.ok.inj h
    rw [List.mem_filter, collect_keys_ok_mem hc k]
    simp

theorem collect_pairs_ok_mem {ds : FilesystemDataStore} {c : Committed} {fs : FS}
    {keys : List Key} {acc ps : List (Key × String)}
    (h : collect_pairs ds c fs keys acc = .ok ps) (k : Key) (v : String) :
    (k, v) ∈ ps ↔ ((k, v) ∈ acc ∨ (k ∈ keys ∧ ds.get_key k c fs = .ok (some v))) := by
  induction keys generalizing acc with
  | nil =>
    obtain rfl : acc = ps := Except.ok.inj h
    simp
  | cons k₀ rest ih =>
    unfold collect_pairs at h
    cases hg : ds.get_key k₀ c fs with
    | error e => rw [hg] at h; exact Except.noConfusion h
    | ok r =>
      rw [hg] at h
      cases r with
      | none =>
        rw [ih h]
        constructor
        · rintro (hacc | ⟨hmem, hget⟩)
          · exact Or.inl hacc
          · exact Or.inr ⟨List.mem_cons_of_mem _ hmem, hget⟩
        · rintro (hacc | ⟨hmem, hget⟩)
          · exact Or.inl hacc
          · rcases List.mem_cons.mp hmem with rfl | hmem'
            · rw [hg] at hget
              injection hget with h1
              exact Option.noConfusion h1
            · exact Or.inr ⟨hmem', hget⟩
      | some w =>
        rw [ih h]
        constructor
        · rintro (hacc | ⟨hmem, hget⟩)
          · rcases List.mem_append.mp hacc with hacc' | hkv
            · exact Or.inl hacc'
            · obtain ⟨rfl, rfl⟩ : k = k₀ ∧ v = w := by
                rcases List.mem_singleton.mp hkv with heq
                exact ⟨congrArg Prod.fst heq, congrArg Prod.snd heq⟩
              exact Or.inr ⟨List.mem_cons_self _ _, hg⟩
          · exact Or.inr ⟨List.mem_cons_of_mem _ hmem, hget⟩
        · rintro (hacc | ⟨hmem, hget⟩)
          · exact Or.inl (List.mem_append.mpr (Or.inl hacc))
          · rcases List.mem_cons.mp hmem with rfl | hmem'
            · rw [hg] at hget
              injection hget with h1
              obtain rfl : w = v := Option.some.inj h1
              exact Or.inl (List.mem_append.mpr (Or.inr (List.mem_singleton.mpr rfl)))
            · exact Or.inr ⟨hmem', hget⟩

/-- Characterization of the modelled `get_prefix`: its pairs are exactly the
listed keys with their stored values. -/
theorem getPrefixPairs_ok_mem {ds : FilesystemDataStore} {pfx : List Char}
    {c : Committed} {fs : FS} {ps : List (Key × String)}
    (hex : fs.pathExists (ds.base_path c) = true)
    (h : ds.getPrefixPairs pfx c fs = .ok ps) (k : Key) (v : String) :
    (k, v) ∈ ps ↔ ((∃ e ∈ fs.walk (ds.base_path c),
        data_key_for_entry e (ds.base_path c) = .ok (some k)) ∧ pfx <+: k.name ∧
        ds.get_key k c fs = .ok (some v)) := by
  unfold FilesystemDataStore.getPrefixPairs at h
  cases hl : ds.list_populated_keys pfx c fs with
  | error e => rw [hl] at h; exact Except.noConfusion h
  | ok keys =>
    rw [hl] at h
    rw [collect_pairs_ok_mem h k v]
    simp only [List.not_mem_nil, false_or]
    rw [list_populated_keys_ok_mem hex hl k]
    tauto

/-- The modelled `get_prefix` never pairs one key with two values. -/
theorem getPrefixPairs_functional {ds : FilesystemDataStore} {pfx : List Char}
    {c : Committed} {fs : FS} {ps : List (Key × String)}
    (hex : fs.pathExists (ds.base_path c) = true)
    (h : ds.getPrefixPairs pfx c fs = .ok ps) :
    ∀ k v v', (k, v) ∈ ps → (k, v') ∈ ps → v = v' := by
  intro k v v' hv hv'
  have h1 := ((getPrefixPairs_ok_mem hex h k v).mp hv).2.2
  have h2 := ((getPrefixPairs_ok_mem hex h k v').mp hv').2.2
  rw [h1] at h2
  injection h2 with h3
  exact Option.some.inj h3

/-! ## Walk-entry / key correspondence -/

theorem Key.new_data_segs {n : List Char} {k : Key}
    (h : Key.new .Data n = .ok k) : k.segs = n.splitOn '.' := by
  unfold Key.new at h
  by_cases hok : KeyOK (n.splitOn '.')
  · rw [dif_pos hok] at h
    obtain rfl : _ = k := Except.ok.inj h
    rfl
  · rw [dif_neg hok] at h
    exact Except.noConfusion h

theorem Key.new_meta_validSegment {n : List Char} {k : Key}
    (h : Key.new .Meta n = .ok k) : validSegment n = true := by
  unfold Key.new at h
  by_cases hok : KeyOK (n.splitOn '.')
  · rw [dif_pos hok] at h
    by_cases hlen : (n.splitOn '.').length = 1
    · obtain ⟨s, hs⟩ : ∃ s, n.splitOn '.' = [s] := by
        cases hsp : n.splitOn '.' with
        | nil => rw [hsp] at hlen; exact absurd hlen (by simp)
        | cons a rest =>
          cases rest with
          | nil => exact ⟨a, rfl⟩
          | cons b rest' => rw [hsp] at hlen; exact absurd hlen (by simp)
      have hn : n = s := by
        have this : List.intercalate ['.'] (n.splitOn '.') = n := List.intercalate_splitOn n '.'
        rw [hs] at this
        have hj : joinSep '.' [s] = s := rfl
        rw [joinSep_eq_intercalate] at hj
        rw [hj] at this
        exact this.symm
      rw [hn]
      exact hok.2.1 s (by rw [hs]; exact List.mem_singleton.mpr rfl)
    · rw [if_neg hlen] at h
      exact Except.noConfusion h
  · rw [dif_neg hok] at h
    exact Except.noConfusion h

/-- A regular file at the data path of a valid key is recognized by
`data_key_for_entry` as exactly that key. -/
theorem data_key_for_entry_of_key (base : FsPath) (k : Key) (v : String) :
    data_key_for_entry (.file (base ++ k.segs) v) base = .ok (some k) := by
  have hne := key_segs_ne_nil k
  obtain ⟨s, hlast⟩ : ∃ s, k.segs.getLast? = some s := by
    cases hgl : k.segs.getLast? with
    | none => exact absurd (List.getLast?_eq_none_iff.mp hgl) hne
    | some s => exact ⟨s, rfl⟩
  have hsmem : s ∈ k.segs := by
    obtain ⟨l', hl⟩ := List.getLast?_eq_some_iff.mp hlast
    rw [hl]
    exact List.mem_append.mpr (Or.inr (List.mem_singleton.mpr rfl))
  have hsv : validSegment s = true := key_segs_valid k s hsmem
  have hslen : s.length < 4096 :=
    Nat.lt_of_le_of_lt (length_le_keyName hsmem) (keyOK_segs k).2.2
  obtain ⟨hok1, hmeta⟩ := Key.new_meta_of_validSegment hsv hslen
  have hplast : (base ++ k.segs).getLast? = some s := by
    rw [List.getLast?_append_of_ne_nil base hne]
    exact hlast
  have hdata : Key.new .Data (keyName k.segs) = .ok k := by
    obtain ⟨segs, hk⟩ := k
    exact Key.new_keyName hk
  simp only [data_key_for_entry, hplast, hmeta, if_pos (List.prefix_append base k.segs),
    List.drop_left, hdata]

/-- What a successful `data_key_for_entry` on a file entry tells us. -/
theorem data_key_for_entry_some_parts {p : FsPath} {v : String} {base : FsPath} {k : Key}
    (h : data_key_for_entry (.file p v) base = .ok (some k)) :
    base <+: p ∧ Key.new .Data (keyName (p.drop base.length)) = .ok k ∧
      ∃ s, p.getLast? = some s ∧ validSegment s = true := by
  simp only [data_key_for_entry] at h
  cases hgl : p.getLast? with
  | none =>
    simp only [hgl] at h
    exact Except.noConfusion h
  | some filename =>
    simp only [hgl] at h
    cases hm : Key.new .Meta filename with
    | error e =>
      simp only [hm] at h
      injection h with h1
      exact Option.noConfusion h1
    | ok mk =>
      simp only [hm] at h
      by_cases hpre : base <+: p
      · rw [if_pos hpre] at h
        cases hd : Key.new .Data (keyName (p.drop base.length)) with
        | error e =>
          simp only [hd] at h
          exact Except.noConfusion h
        | ok key =>
          simp only [hd, Except.ok.injEq, Option.some.injEq] at h
          obtain rfl : key = k := h
          exact ⟨hpre, rfl, filename, rfl, Key.new_meta_validSegment hm⟩
      · rw [if_neg hpre] at h
        exact Except.noConfusion h

/-- Under dot-free, non-empty directory names below the scope root, a
successful `data_key_for_entry` on a file entry pins the file's path to
the recognized key's data path. -/
theorem data_key_for_entry_some_path {p : FsPath} {v : String} {base : FsPath} {k : Key}
    (h : data_key_for_entry (.file p v) base = .ok (some k))
    (hgood : ∀ s ∈ (p.drop base.length).dropLast, s ≠ [] ∧ '.' ∉ s) :
    p = base ++ k.segs := by
  obtain ⟨hpre, hdata, s, hlast, hsv⟩ := data_key_for_entry_some_parts h
  obtain ⟨t, rfl⟩ := hpre
  rw [List.drop_left] at hdata hgood
  have htne : t ≠ [] := by
    rintro rfl
    have : Key.new .Data (keyName ([] : List Seg)) = .error (.InvalidKey []) := by decide
    rw [this] at hdata
    exact Except.noConfusion hdata
  have hlast' : t.getLast? = some s := by
    rw [List.getLast?_append_of_ne_nil base htne] at hlast
    exact hlast
  have hall : ∀ u ∈ t, u ≠ [] ∧ '.' ∉ u := by
    obtain ⟨l', rfl⟩ := List.getLast?_eq_some_iff.mp hlast'
    intro u hu
    rcases List.mem_append.mp hu with hmem | hmem
    · refine hgood u ?_
      rw [List.dropLast_concat]
      exact hmem
    · obtain rfl : u = s := List.mem_singleton.mp hmem
      exact ⟨validSegment_ne_nil hsv, validSegment_not_mem hsv validKeyChar_dot⟩
  have hsegs : k.segs = t := by
    rw [Key.new_data_segs hdata]
    exact splitOn_joinSep htne (fun u hu => (hall u hu).2)
  rw [hsegs]

/-! ## set_keys lemmas -/

theorem target_inj {base : FsPath} {k k' : Key}
    (h : base ++ k.segs = base ++ k'.segs) : k = k' :=
  Subtype.ext (List.append_cancel_left h)

theorem set_keys_ok_frame {ds : FilesystemDataStore} {pairs : List (Key × String)}
    {c : Committed} {fs fs' : FS} (h : ds.set_keys pairs c fs = .ok fs') :
    ∀ p, (∀ e ∈ pairs, p ≠ ds.base_path c ++ e.1.segs) → fs'.isFile p = fs.isFile p := by
  induction pairs generalizing fs with
  | nil =>
    obtain rfl : fs = fs' := Except.ok.inj h
    intro p _
    rfl
  | cons e₀ rest ih =>
    obtain ⟨k₀, v₀⟩ := e₀
    unfold FilesystemDataStore.set_keys at h
    cases hsk : ds.set_key k₀ v₀ c fs with
    | error e => rw [hsk] at h; exact Except.noConfusion h
    | ok fs₁ =>
      rw [hsk] at h
      intro p hp
      rw [set_key_eq] at hsk
      obtain ⟨_, hframe, _⟩ := write_file_mkdir_ok hsk
      rw [ih h p (fun e he => hp e (List.mem_cons_of_mem _ he))]
      exact hframe p (hp (k₀, v₀) (List.mem_cons_self _ _))

theorem set_keys_ok_written {ds : FilesystemDataStore} {pairs : List (Key × String)}
    {c : Committed} {fs fs' : FS} (h : ds.set_keys pairs c fs = .ok fs') :
    ∀ e ∈ pairs, (∀ e' ∈ pairs, e'.1 = e.1 → e'.2 = e.2) →
      fs'.isFile (ds.base_path c ++ e.1.segs) = some e.2 := by
  induction pairs generalizing fs with
  | nil =>
    intro e he
    cases he
  | cons e₀ rest ih =>
    obtain ⟨k₀, v₀⟩ := e₀
    unfold FilesystemDataStore.set_keys at h
    cases hsk : ds.set_key k₀ v₀ c fs with
    | error e => rw [hsk] at h; exact Except.noConfusion h
    | ok fs₁ =>
      rw [hsk] at h
      intro e he hfun
      rcases List.mem_cons.mp he with rfl | hmem
      · by_cases hrest : ∃ e' ∈ rest, e'.1 = k₀
        · obtain ⟨e', he', hk'⟩ := hrest
          have hv' : e'.2 = v₀ := hfun e' (List.mem_cons_of_mem _ he') hk'
          have he'' : e' = (k₀, v₀) := Prod.ext hk' hv'
          rw [he''] at he'
          exact ih h (k₀, v₀) he' (fun e'' he''2 h2 =>
            hfun e'' (List.mem_cons_of_mem _ he''2) h2)
        · push_neg at hrest
          rw [set_key_eq] at hsk
          obtain ⟨hwrote, _, _⟩ := write_file_mkdir_ok hsk
          rw [set_keys_ok_frame h _ ?_]
          · exact hwrote
          · intro e' he' heq
            exact hrest e' he' (target_inj heq.symm ▸ rfl)
      · exact ih h e hmem (fun e' he' h2 => hfun e' (List.mem_cons_of_mem _ he') h2)

theorem set_keys_ok_dirs {ds : FilesystemDataStore} {pairs : List (Key × String)}
    {c : Committed} {fs fs' : FS} (h : ds.set_keys pairs c fs = .ok fs') :
    ∀ d, fs'.isDir d = true →
      fs.isDir d = true ∨ ∃ e ∈ pairs, d <+: (ds.base_path c ++ e.1.segs).dropLast := by
  induction pairs generalizing fs with
  | nil =>
    obtain rfl : fs = fs' := Except.ok.inj h
    intro d hd
    exact Or.inl hd
  | cons e₀ rest ih =>
    obtain ⟨k₀, v₀⟩ := e₀
    unfold FilesystemDataStore.set_keys at h
    cases hsk : ds.set_key k₀ v₀ c fs with
    | error e => rw [hsk] at h; exact Except.noConfusion h
    | ok fs₁ =>
      rw [hsk] at h
      intro d hd
      rcases ih h d hd with hd₁ | ⟨e, he, hpre⟩
      · rw [set_key_eq] at hsk
        obtain ⟨_, _, hdirs⟩ := write_file_mkdir_ok hsk
        unfold FS.isDir at hd₁
        rw [hdirs] at hd₁
        rcases List.mem_append.mp (of_decide_eq_true hd₁) with hmem | hmem
        · exact Or.inr ⟨(k₀, v₀), List.mem_cons_self _ _,
            (List.mem_inits _ _).mp hmem⟩
        · exact Or.inl (decide_eq_true hmem)
      · exact Or.inr ⟨e, List.mem_cons_of_mem _ he, hpre⟩

/-! ## Scope-root disjointness -/

theorem disjoint_scope_prefix {b : FsPath} {x y : Seg} (hxy : x ≠ y) (rest : FsPath) :
    ¬ (b ++ [x]) <+: ((b ++ [y]) ++ rest) := by
  rintro ⟨t, ht⟩
  rw [List.append_assoc, List.append_assoc] at ht
  have h2 : [x] ++ t = [y] ++ rest := List.append_cancel_left ht
  simp only [List.singleton_append, List.cons.injEq] at h2
  exact hxy h2.1

theorem pendingSeg_ne_liveSeg : ("pending".toList : Seg) ≠ "live".toList := by decide

theorem new_base_path_live (b : FsPath) :
    (FilesystemDataStore.new b).base_path .Live = b ++ ["live".toList] := rfl

theorem new_base_path_pending (b : FsPath) :
    (FilesystemDataStore.new b).base_path .Pending = b ++ ["pending".toList] := rfl

/-- The pending scope root is never an ancestor of anything in the live
scope. -/
theorem pending_not_prefix_of_live (b : FsPath) (rest : FsPath) :
    ¬ (FilesystemDataStore.new b).pending_path <+:
      ((FilesystemDataStore.new b).base_path .Live ++ rest) := by
  rw [new_base_path_live]
  exact disjoint_scope_prefix pendingSeg_ne_liveSeg rest

/-! ## Commit structure -/

theorem get_key_ok_some_iff (ds : FilesystemDataStore) (k : Key) (c : Committed) (fs : FS)
    (v : String) :
    ds.get_key k c fs = .ok (some v) ↔ fs.isFile (ds.base_path c ++ k.segs) = some v := by
  rw [get_key_eq]
  unfold read_file_for_key
  cases hf : fs.isFile (ds.base_path c ++ k.segs) with
  | some s => simp
  | none =>
    by_cases hd : fs.isDir (ds.base_path c ++ k.segs) = true
    · simp [hd]
    · simp [hd]

theorem commit_ok_parts {ds : FilesystemDataStore} {fs : FS} {ks : List Key} {fs₂ : FS}
    (h : ds.commit fs = .ok (ks, fs₂)) :
    ∃ pd fs₁, ds.getPrefixPairs settingsDot .Pending fs = .ok pd ∧
      ks = pd.map (fun e => e.1) ∧
      ds.set_keys pd .Live fs = .ok fs₁ ∧
      fs₁.removeDirAll ds.pending_path = .ok fs₂ := by
  unfold FilesystemDataStore.commit at h
  cases hpd : ds.getPrefixPairs settingsDot .Pending fs with
  | error e => rw [hpd] at h; exact Except.noConfusion h
  | ok pd =>
    rw [hpd] at h
    cases hsk : ds.set_keys pd .Live fs with
    | error e =>
      simp only [hsk] at h
      exact Except.noConfusion h
    | ok fs₁ =>
      simp only [hsk] at h
      cases hrm : fs₁.removeDirAll ds.pending_path with
      | error e =>
        simp only [hrm] at h
        exact Except.noConfusion h
      | ok fs₂' =>
        simp only [hrm, Except.ok.injEq, Prod.mk.injEq] at h
        obtain ⟨rfl, rfl⟩ := h
        exact ⟨pd, fs₁, rfl, rfl, hsk, hrm⟩

theorem commit_ok_pending_exists {b : FsPath} {fs : FS} {ks : List Key} {fs₂ : FS}
    (h : (FilesystemDataStore.new b).commit fs = .ok (ks, fs₂)) :
    fs.pathExists ((FilesystemDataStore.new b).base_path .Pending) = true := by
  obtain ⟨pd, fs₁, hpd, hks, hsk, hrm⟩ := commit_ok_parts h
  have hdir₁ : fs₁.isDir (FilesystemDataStore.new b).pending_path = true :=
    FS.removeDirAll_ok_isDir hrm
  rcases set_keys_ok_dirs hsk _ hdir₁ with hdir | ⟨e, _, hpre⟩
  · have hdir' : fs.isDir ((FilesystemDataStore.new b).base_path .Pending) = true := hdir
    unfold FS.pathExists
    rw [hdir', Bool.or_true]
  · exact absurd (hpre.trans ( List.dropLast_prefix _)) (pending_not_prefix_of_live b _)

/-- The pending pair found by a successful commit for any settings-prefixed
key whose pending file is populated. -/
theorem commit_ok_pair_mem {b : FsPath} {fs : FS} {pd : List (Key × String)}
    (hex : fs.pathExists ((FilesystemDataStore.new b).base_path .Pending) = true)
    (hpd : (FilesystemDataStore.new b).getPrefixPairs settingsDot .Pending fs = .ok pd)
    (k : Key) (v : String) :
    (k, v) ∈ pd ↔ (settingsDot <+: k.name ∧
      (FilesystemDataStore.new b).get_key k .Pending fs = .ok (some v)) := by
  rw [getPrefixPairs_ok_mem hex hpd k v]
  constructor
  · rintro ⟨_, hpfx, hget⟩
    exact ⟨hpfx, hget⟩
  · rintro ⟨hpfx, hget⟩
    refine ⟨⟨_, ?_, data_key_for_entry_of_key _ k v⟩, hpfx, hget⟩
    have hfile : fs.isFile ((FilesystemDataStore.new b).base_path .Pending ++ k.segs) = some v :=
      (get_key_ok_some_iff _ k .Pending fs v).mp hget
    exact FS.walk_mem_file.mpr ⟨lookupFile_eq_some_mem hfile, List.prefix_append _ _⟩

/-- C1 (amended), part of the commit postcondition: each committed pending
pair is readable from the live scope of the post-commit state. -/
theorem commit_ok_live_readable {b : FsPath} {fs : FS} {ks : List Key} {fs₂ : FS}
    (h : (FilesystemDataStore.new b).commit fs = .ok (ks, fs₂)) :
    ∀ (k : Key) (v : String), settingsDot <+: k.name →
      (FilesystemDataStore.new b).get_key k .Pending fs = .ok (some v) →
      (FilesystemDataStore.new b).get_key k .Live fs₂ = .ok (some v) := by
  obtain ⟨pd, fs₁, hpd, hks, hsk, hrm⟩ := commit_ok_parts h
  have hex := commit_ok_pending_exists h
  intro k v hpfx hget
  have hpair : (k, v) ∈ pd := (commit_ok_pair_mem hex hpd k v).mpr ⟨hpfx, hget⟩
  have hfun := getPrefixPairs_functional hex hpd
  have hwrote : fs₁.isFile ((FilesystemDataStore.new b).base_path .Live ++ k.segs) = some v := by
    have := set_keys_ok_written hsk (k, v) hpair ?_
    · exact this
    · intro e' he' h1
      have he'' : e' = (k, e'.2) := Prod.ext h1 rfl
      rw [he''] at he'
      exact hfun k e'.2 v he' hpair
  have hframe := FS.removeDirAll_ok_frame hrm _ (pending_not_prefix_of_live b k.segs)
  rw [get_key_ok_some_iff, hframe.1, hwrote]

theorem metadata_path_ok (ds : FilesystemDataStore) (mk dk : Key) (c : Committed) :
    ∃ bn, dk.segs.getLast? = some bn ∧
      ds.metadata_path mk dk c =
        .ok ((ds.base_path c ++ dk.segs).dropLast ++ [bn ++ '.' :: mk.name]) := by
  obtain ⟨bn, hlast⟩ : ∃ bn, dk.segs.getLast? = some bn := by
    cases hgl : dk.segs.getLast? with
    | none => exact absurd (List.getLast?_eq_none_iff.mp hgl) (key_segs_ne_nil dk)
    | some bn => exact ⟨bn, rfl⟩
  have hplast : (ds.base_path c ++ dk.segs).getLast? = some bn := by
    rw [List.getLast?_append_of_ne_nil _ (key_segs_ne_nil dk)]
    exact hlast
  exact ⟨bn, hlast, by
    simp only [FilesystemDataStore.metadata_path, data_path_ok, hplast]⟩

/-! ## Claim theorems: commit (C1, C2, C9) -/

/-- C1 (amended): after a successful `commit`, the Pending scope lists no
keys under `"settings."`, and every data key populated in Pending *under
the prefix `"settings."`* immediately before the commit is readable from
Live with the same value.  (Amendment: the claim's second conjunct holds
only for settings-prefixed pending keys; commit copies nothing else — see
the counterexample.) -/
theorem c1_commit_post_state (b : FsPath) (fs : FS) (ks : List Key) (fs₂ : FS)
    (h : (FilesystemDataStore.new b).commit fs = .ok (ks, fs₂)) :
    (FilesystemDataStore.new b).list_populated_keys settingsDot .Pending fs₂ = .ok [] ∧
    ∀ (k : Key) (v : String), settingsDot <+: k.name →
      (FilesystemDataStore.new b).get_key k .Pending fs = .ok (some v) →
      (FilesystemDataStore.new b).get_key k .Live fs₂ = .ok (some v) := by
  obtain ⟨pd, fs₁, hpd, hks, hsk, hrm⟩ := commit_ok_parts h
  constructor
  · have hnex : fs₂.pathExists ((FilesystemDataStore.new b).base_path .Pending) = false :=
      FS.removeDirAll_ok_removed hrm _ (List.prefix_refl _)
    simp [FilesystemDataStore.list_populated_keys, hnex]
  · exact commit_ok_live_readable h

/-- C2: the set of keys returned by a successful `commit` is exactly the
set of data keys populated in Pending immediately before the commit whose
dotted text starts with `"settings."`. -/
theorem c2_commit_set (b : FsPath) (fs : FS) (ks : List Key) (fs₂ : FS)
    (h : (FilesystemDataStore.new b).commit fs = .ok (ks, fs₂)) :
    ∀ k : Key, k ∈ ks ↔ (settingsDot <+: k.name ∧
      ∃ v, (FilesystemDataStore.new b).get_key k .Pending fs = .ok (some v)) := by
  obtain ⟨pd, fs₁, hpd, hks, hsk, hrm⟩ := commit_ok_parts h
  have hex := commit_ok_pending_exists h
  intro k
  rw [hks, List.mem_map]
  constructor
  · rintro ⟨e, he, rfl⟩
    have he' : (e.1, e.2) ∈ pd := he
    have := (commit_ok_pair_mem hex hpd e.1 e.2).mp he'
    exact ⟨this.1, e.2, this.2⟩
  · rintro ⟨hpfx, v, hget⟩
    exact ⟨(k, v), (commit_ok_pair_mem hex hpd k v).mpr ⟨hpfx, hget⟩, rfl⟩

/-- C9: a successful `commit` removes the whole pending tree (including
pending keys not under `"settings."`, which are not promoted), returns
only settings-prefixed keys, and changes no other file: any path neither
under the pending scope nor the live data path of a returned key — in
particular every live metadata file — keeps its previous content. -/
theorem c9_commit_frame (b : FsPath) (fs : FS) (ks : List Key) (fs₂ : FS)
    (h : (FilesystemDataStore.new b).commit fs = .ok (ks, fs₂)) :
    (∀ q, (FilesystemDataStore.new b).pending_path <+: q → fs₂.pathExists q = false) ∧
    (∀ k : Key, k ∈ ks → settingsDot <+: k.name) ∧
    (∀ p, ¬ (FilesystemDataStore.new b).pending_path <+: p →
      (∀ k ∈ ks, p ≠ (FilesystemDataStore.new b).base_path .Live ++ k.segs) →
      fs₂.isFile p = fs.isFile p) ∧
    (∀ (mk dk : Key) (mp : FsPath),
      (FilesystemDataStore.new b).metadata_path mk dk .Live = .ok mp →
      fs₂.isFile mp = fs.isFile mp) := by
  obtain ⟨pd, fs₁, hpd, hks, hsk, hrm⟩ := commit_ok_parts h
  have hex := commit_ok_pending_exists h
  have hsub : ∀ k : Key, k ∈ ks → settingsDot <+: k.name := by
    intro k hk
    rw [hks, List.mem_map] at hk
    obtain ⟨e, he, rfl⟩ := hk
    have he' : (e.1, e.2) ∈ pd := he
    exact ((commit_ok_pair_mem hex hpd e.1 e.2).mp he').1
  have hframe : ∀ p, ¬ (FilesystemDataStore.new b).pending_path <+: p →
      (∀ k ∈ ks, p ≠ (FilesystemDataStore.new b).base_path .Live ++ k.segs) →
      fs₂.isFile p = fs.isFile p := by
    intro p hp hnt
    rw [(FS.removeDirAll_ok_frame hrm p hp).1]
    refine set_keys_ok_frame hsk p ?_
    intro e he
    refine hnt e.1 ?_
    rw [hks, List.mem_map]
    exact ⟨e, he, rfl⟩
  refine ⟨fun q hq => FS.removeDirAll_ok_removed hrm q hq, hsub, hframe, ?_⟩
  intro mk dk mp hmp
  obtain ⟨bn, hlast, hmp'⟩ := metadata_path_ok (FilesystemDataStore.new b) mk dk .Live
  rw [hmp'] at hmp
  obtain rfl : _ = mp := Except.ok.inj hmp
  have hshape : ((FilesystemDataStore.new b).base_path .Live ++ dk.segs).dropLast
      ++ [bn ++ '.' :: mk.name]
      = (FilesystemDataStore.new b).base_path .Live
        ++ (dk.segs.dropLast ++ [bn ++ '.' :: mk.name]) := by
    rw [List.dropLast_append_of_ne_nil _ (key_segs_ne_nil dk), List.append_assoc]
  refine hframe _ ?_ ?_
  · rw [hshape]
    exact pending_not_prefix_of_live b _
  · intro k hk heq
    have hlast₂ : ((FilesystemDataStore.new b).base_path .Live ++ k.segs).getLast?
        = some (bn ++ '.' :: mk.name) := by
      rw [← heq, List.getLast?_concat]
    rw [List.getLast?_append_of_ne_nil _ (key_segs_ne_nil k)] at hlast₂
    obtain ⟨s, hks', hsv⟩ : ∃ s, k.segs.getLast? = some s ∧ validSegment s = true := by
      cases hgl : k.segs.getLast? with
      | none => exact absurd (List.getLast?_eq_none_iff.mp hgl) (key_segs_ne_nil k)
      | some s =>
        exact ⟨s, rfl, key_segs_valid k s (List.mem_of_getLast?_eq_some hgl)⟩
    rw [hks'] at hlast₂
    obtain rfl : s = bn ++ '.' :: mk.name := Option.some.inj hlast₂
    have hdot : ('.' : Char) ∈ bn ++ '.' :: mk.name :=
      List.mem_append.mpr (Or.inr (List.mem_cons_self _ _))
    exact validSegment_not_mem hsv validKeyChar_dot hdot

/-! ## Claim theorems: listing and paths (C3, C4, C5, C10) -/

/-- C3: `list_populated_keys(P, S)` returns exactly the populated data keys
whose dotted text has `P` as a *textual* prefix — `P` need not be a valid
key or segment-aligned.  Stated for stores whose directory tree is
well-formed (each file's proper ancestors are directories, and path
components below the scope root are non-empty and dot-free), which the
store's own writes guarantee. -/
theorem c3_list_filter (ds : FilesystemDataStore) (pfx : List Char) (c : Committed)
    (fs : FS) (ks : List Key)
    (hanc : ∀ p v, (p, v) ∈ fs.files → ∀ q, q <+: p → q ≠ p → q ∈ fs.dirs)
    (hgood : ∀ p v, (p, v) ∈ fs.files → ds.base_path c <+: p →
      ∀ s ∈ (p.drop (ds.base_path c).length).dropLast, s ≠ [] ∧ '.' ∉ s)
    (h : ds.list_populated_keys pfx c fs = .ok ks) :
    ∀ k : Key, k ∈ ks ↔
      ((fs.isFile (ds.base_path c ++ k.segs)).isSome ∧ pfx <+: k.name) := by
  intro k
  cases hex : fs.pathExists (ds.base_path c) with
  | false =>
    have hks : ks = [] := by
      unfold FilesystemDataStore.list_populated_keys at h
      simp only [hex, Bool.false_eq_true, if_false] at h
      cases c with
      | Live => exact Except.noConfusion h
      | Pending => exact (Except.ok.inj h).symm
    rw [hks]
    simp only [List.not_mem_nil, false_iff]
    rintro ⟨hsome, -⟩
    obtain ⟨v, hv⟩ := Option.isSome_iff_exists.mp hsome
    have hmem := lookupFile_eq_some_mem hv
    have hneq : ds.base_path c ≠ ds.base_path c ++ k.segs := by
      intro he
      exact key_segs_ne_nil k (List.append_cancel_left
        (he.symm.trans (List.append_nil (ds.base_path c)).symm))
    have hdir := hanc _ v hmem (ds.base_path c) (List.prefix_append _ _) hneq
    have : fs.pathExists (ds.base_path c) = true := by
      unfold FS.pathExists FS.isDir
      rw [decide_eq_true hdir, Bool.or_true]
    rw [this] at hex
    exact Bool.noConfusion hex
  | true =>
    rw [list_populated_keys_ok_mem hex h k]
    constructor
    · rintro ⟨⟨e, he, hde⟩, hpfx⟩
      cases e with
      | dir d =>
        have : data_key_for_entry (.dir d) (ds.base_path c) = .ok none := rfl
        rw [this] at hde
        injection hde with h1
        exact absurd h1 (fun h2 => Option.noConfusion h2)
      | file p v =>
        obtain ⟨hpv, hpre⟩ := FS.walk_mem_file.mp he
        have hpath := data_key_for_entry_some_path hde (hgood p v hpv hpre)
        refine ⟨?_, hpfx⟩
        rw [← hpath]
        cases hf : fs.isFile p with
        | none => exact absurd hpv (lookupFile_eq_none.mp hf v)
        | some w => rfl
    · rintro ⟨hsome, hpfx⟩
      obtain ⟨v, hv⟩ := Option.isSome_iff_exists.mp hsome
      refine ⟨⟨.file (ds.base_path c ++ k.segs) v, ?_,
        data_key_for_entry_of_key _ k v⟩, hpfx⟩
      exact FS.walk_mem_file.mpr ⟨lookupFile_eq_some_mem hv, List.prefix_append _ _⟩

/-- C4: listing the Pending scope when its directory has never been written
returns the empty set, while listing the Live scope when its directory is
absent fails with a Corruption error. -/
theorem c4_missing_scope (ds : FilesystemDataStore) (pfx : List Char) (fs : FS) :
    (fs.pathExists (ds.base_path .Pending) = false →
      ds.list_populated_keys pfx .Pending fs = .ok []) ∧
    (fs.pathExists (ds.base_path .Live) = false →
      ds.list_populated_keys pfx .Live fs =
        .error (.Corruption (ds.base_path .Live))) := by
  constructor <;> intro hex <;>
    simp [FilesystemDataStore.list_populated_keys, hex]

/-- C5: for every valid Data key `k` and scope `S`, `data_path` returns
`base/<S>/` followed by `k`'s segments — a strict descendant of the scope
root — and any key text whose computed path would equal or escape the
scope root is rejected with a `PathTraversal` error instead of being
returned. -/
theorem c5_data_path (ds : FilesystemDataStore) (c : Committed) (k : Key) :
    ds.data_path k c = .ok (ds.base_path c ++ k.segs) ∧
    ds.base_path c <+: ds.base_path c ++ k.segs ∧
    ds.base_path c ++ k.segs ≠ ds.base_path c ∧
    (∀ name : List Char,
      (pathJoin (ds.base_path c) (name.map (fun ch => if ch = '.' then sepChar else ch))
          = ds.base_path c ∨
        ¬ ds.base_path c <+:
          pathJoin (ds.base_path c) (name.map (fun ch => if ch = '.' then sepChar else ch))) →
      data_path_raw (ds.base_path c) name = .error (.PathTraversal name)) := by
  have hne : ds.base_path c ++ k.segs ≠ ds.base_path c := by
    intro he
    exact key_segs_ne_nil k (List.append_cancel_left
      (he.trans (List.append_nil (ds.base_path c)).symm))
  refine ⟨data_path_ok ds k c, List.prefix_append _ _, hne, ?_⟩
  intro name hbad
  unfold data_path_raw
  rw [if_neg]
  rintro ⟨h1, h2⟩
  exact hbad.elim (fun he => h1 he) (fun hnp => hnp h2)

/-- C10: `key_populated` reports true whenever *any* filesystem entry —
including a directory created as an intermediate prefix of a deeper key —
exists at the key's data path; hence in the concrete store below, where
only `a.x` has a data file, `a` is key-populated yet absent from the full
listing (which admits only regular files with valid single-segment
basenames). -/
theorem c10_key_populated_vs_listing :
    (∀ (ds : FilesystemDataStore) (k : Key) (c : Committed) (fs : FS),
      ds.key_populated k c fs = .ok (fs.pathExists (ds.base_path c ++ k.segs))) ∧
    dsX.key_populated aKey .Live fsC = .ok true ∧
    fsC.isFile (dsX.base_path .Live ++ aKey.segs) = none ∧
    dsX.list_populated_keys [] .Live fsC = .ok [axKey] ∧
    aKey ∉ [axKey] := by
  constructor
  · intro ds k c fs
    unfold FilesystemDataStore.key_populated
    rw [data_path_ok]
    rfl
  · exact ⟨by decide, by decide, by decide, by decide⟩

/-! ## Witnesses and counterexamples for the commit and listing claims -/

theorem commitW_eq : dsX.commit fsW = .ok (ksW, fsW₂) := by decide

/-- C1 counterexample: with only the non-settings key `foo` populated in
Pending, the commit succeeds yet `foo` is not readable from Live afterwards
— refuting the claim that *every* pending data key is readable from Live
with the same value after a successful commit. -/
theorem c1_counterexample :
    dsX.commit fsX = .ok ([], fsX₂) ∧
    dsX.get_key fooKey .Pending fsX = .ok (some ("v")) ∧
    dsX.get_key fooKey .Live fsX₂ = .ok none := by decide

theorem c1_witness :
    dsX.list_populated_keys settingsDot .Pending fsW₂ = .ok [] ∧
    dsX.get_key hostKey .Live fsW₂ = .ok (some ("\"h\"")) := by
  have h := c1_commit_post_state [['b']] fsW ksW fsW₂ commitW_eq
  exact ⟨h.1, h.2 hostKey ("\"h\"") (by decide) (by decide)⟩

theorem c2_witness : hostKey ∈ ksW ∧ fooKey ∉ ksW := by
  have h := c2_commit_set [['b']] fsW ksW fsW₂ commitW_eq
  constructor
  · exact (h hostKey).mpr ⟨by decide, ("\"h\""), by decide⟩
  · intro hmem
    exact absurd ((h fooKey).mp hmem).1 (by decide)

theorem c9_witness : fsW₂.pathExists dsX.pending_path = false :=
  (c9_commit_frame [['b']] fsW ksW fsW₂ commitW_eq).1 dsX.pending_path (List.prefix_refl _)

theorem c3_witness : hostKey ∈ ks3 := by
  have hl : dsX.list_populated_keys ("sett".toList) .Live fs3 = .ok ks3 := by decide
  refine (c3_list_filter dsX ("sett".toList) .Live fs3 ks3 ?_ ?_ hl hostKey).mpr
    ⟨by decide, by decide⟩
  · intro p v hmem q hq hne
    have hm := List.mem_singleton.mp hmem
    rw [Prod.mk.injEq] at hm
    obtain ⟨rfl, rfl⟩ := hm
    have hall : ∀ q' ∈ ([['b'], liveSeg, settingsSeg, hostnameSeg] : FsPath).inits,
        q' ≠ [['b'], liveSeg, settingsSeg, hostnameSeg] → q' ∈ fs3.dirs := by decide
    exact hall q ((List.mem_inits _ _).mpr hq) hne
  · intro p v hmem hpre
    have hm := List.mem_singleton.mp hmem
    rw [Prod.mk.injEq] at hm
    obtain ⟨rfl, rfl⟩ := hm
    have hall : ∀ s ∈ ((([['b'], liveSeg, settingsSeg, hostnameSeg] : FsPath).drop
        (dsX.base_path .Live).length).dropLast), s ≠ [] ∧ '.' ∉ s := by decide
    exact hall

theorem c4_witness :
    dsX.list_populated_keys settingsDot .Pending fsE = .ok [] ∧
    dsX.list_populated_keys settingsDot .Live fsE =
      .error (.Corruption (dsX.base_path .Live)) := by
  have h := c4_missing_scope dsX settingsDot fsE
  exact ⟨h.1 (by decide), h.2 (by decide)⟩

theorem c5_witness :
    dsX.data_path hostKey .Live = .ok (dsX.base_path .Live ++ hostKey.segs) ∧
    data_path_raw (dsX.base_path .Live) [] = .error (.PathTraversal []) :=
  ⟨(c5_data_path dsX .Live hostKey).1,
    (c5_data_path dsX .Live hostKey).2.2.2 [] (Or.inl (by decide))⟩

/-! ## Claim theorems: controller and materializer (C6, C7, C8) -/

theorem get_metadata_loop_ok (getmd : Key → Key → Except DSError (Option String))
    (mk : Key) (dks : List (List Char)) (acc : List (List Char × Json))
    (hdk : ∀ d ∈ dks, ∃ k, Key.new .Data d = .ok k)
    (hdes : ∀ d k v, d ∈ dks → Key.new .Data d = .ok k →
      getmd mk k = .ok (some v) → (deserialize_scalar v).isSome) :
    get_metadata_loop getmd mk dks acc = .ok (acc ++ dks.filterMap (fun d =>
      match Key.new .Data d with
      | .error _ => none
      | .ok k =>
        match getmd mk k with
        | .ok (some v) => (deserialize_scalar v).map (fun j => (d, j))
        | .ok none => none
        | .error _ => none)) := by
  induction dks generalizing acc with
  | nil => simp [get_metadata_loop]
  | cons d rest ih =>
    obtain ⟨k, hk⟩ := hdk d (List.mem_cons_self d rest)
    have hdk' : ∀ d' ∈ rest, ∃ k', Key.new .Data d' = .ok k' :=
      fun d' hd' => hdk d' (List.mem_cons_of_mem _ hd')
    have hdes' : ∀ d' k' v, d' ∈ rest → Key.new .Data d' = .ok k' →
        getmd mk k' = .ok (some v) → (deserialize_scalar v).isSome :=
      fun d' k' v hd' => hdes d' k' v (List.mem_cons_of_mem _ hd')
    unfold get_metadata_loop
    simp only [hk]
    cases hg : getmd mk k with
    | error e =>
      simp only [hg]
      rw [ih _ hdk' hdes', List.filterMap_cons]
      simp only [hk, hg]
    | ok r =>
      cases r with
      | none =>
        simp only [hg]
        rw [ih _ hdk' hdes', List.filterMap_cons]
        simp only [hk, hg]
      | some v =>
        have hsome := hdes d k v (List.mem_cons_self d rest) hk hg
        obtain ⟨j, hj⟩ := Option.isSome_iff_exists.mp hsome
        simp only [hg, hj]
        rw [ih _ hdk' hdes', List.filterMap_cons]
        simp only [hk, hg, hj, Option.map_some']
        rw [List.append_cons, List.append_assoc]
        simp

/-- C6: `get_metadata` silently skips every per-data-key read failure
(absent metadata or a datastore read error) and returns, for each
remaining data key, the scalar-deserialized metadata value; no such
per-key failure makes the whole call fail.  Hypotheses: the metadata key
and all data key texts are valid, and every value actually read
deserializes. -/
theorem c6_get_metadata_best_effort
    (getmd : Key → Key → Except DSError (Option String))
    (md_key_str : List Char) (data_key_strs : List (List Char)) (mk : Key)
    (hmk : Key.new .Meta md_key_str = .ok mk)
    (hdk : ∀ d ∈ data_key_strs, ∃ k, Key.new .Data d = .ok k)
    (hdes : ∀ d k v, d ∈ data_key_strs → Key.new .Data d = .ok k →
      getmd mk k = .ok (some v) → (deserialize_scalar v).isSome) :
    get_metadata getmd md_key_str data_key_strs =
      .ok (data_key_strs.filterMap (fun d =>
        match Key.new .Data d with
        | .error _ => none
        | .ok k =>
          match getmd mk k with
          | .ok (some v) => (deserialize_scalar v).map (fun j => (d, j))
          | .ok none => none
          | .error _ => none)) := by
  unfold get_metadata
  rw [hmk]
  simpa using get_metadata_loop_ok getmd mk data_key_strs [] hdk hdes

/-- C7 counterexample: valid JSON text that is not an object (here the
model of the text `1`) makes `settings_input` fail with `NotJsonObject`,
which is neither `InvalidSettings` nor `InvalidJson` — refuting the claim
that every malformed input yields one of those two errors. -/
theorem c7_counterexample :
    settings_input (some (Json.num 1)) = .error .NotJsonObject ∧
    CtrlError.NotJsonObject ≠ CtrlError.InvalidSettings ∧
    CtrlError.NotJsonObject ≠ CtrlError.InvalidJson :=
  ⟨rfl, by decide, by decide⟩

/-- C7 (amended): a JSON value decoding to a Settings yields the same
Settings whether or not it is wrapped in a top-level `"settings"` object,
and every input is either accepted or rejected with one of `InvalidJson`,
`NotJsonObject`, `NoSettings`, `InvalidSettings` (in fallback order). -/
theorem c7_settings_input_normalization (j : Json) (s : Settings)
    (hd : decodeSettings j = some s) :
    settings_input (some j) = .ok s ∧
    settings_input (some (Json.obj [("settings", j)])) = .ok s ∧
    (∀ input : JsonInput, (∃ s', settings_input input = .ok s') ∨
      settings_input input = .error .InvalidJson ∨
      settings_input input = .error .NotJsonObject ∨
      settings_input input = .error .NoSettings ∨
      settings_input input = .error .InvalidSettings) := by
  refine ⟨?_, ?_, ?_⟩
  · simp [settings_input, hd]
  · have houter : decodeSettings (Json.obj [("settings", j)]) = none := rfl
    have hlf : lookupField [("settings", j)] ("settings") = some j := by
      simp [lookupField]
    simp [settings_input, houter, hlf, hd]
  · intro input
    cases input with
    | none => exact Or.inr (Or.inl rfl)
    | some val =>
      cases hdv : decodeSettings val with
      | some s' => exact Or.inl ⟨s', by simp [settings_input, hdv]⟩
      | none =>
        cases val with
        | null => exact Or.inr (Or.inr (Or.inl rfl))
        | bool b => exact Or.inr (Or.inr (Or.inl rfl))
        | num n => exact Or.inr (Or.inr (Or.inl rfl))
        | str s' => exact Or.inr (Or.inr (Or.inl rfl))
        | arr elems => exact Or.inr (Or.inr (Or.inl rfl))
        | obj fields =>
          cases hlf : lookupField fields ("settings") with
          | none =>
            refine Or.inr (Or.inr (Or.inr (Or.inl ?_)))
            simp [settings_input, hdv, hlf]
          | some inner =>
            cases hdi : decodeSettings inner with
            | some s' => exact Or.inl ⟨s', by simp [settings_input, hdv, hlf, hdi]⟩
            | none =>
              refine Or.inr (Or.inr (Or.inr (Or.inr ?_)))
              simp [settings_input, hdv, hlf, hdi]

/-- Helper: the render loop applies the registry to the same wrapped
context for every descriptor. -/
theorem render_loop_eq (registry : String → List (String × Settings) → Option String)
    (w : List (String × Settings)) (cfgs : ConfigurationFiles)
    (acc : List RenderedConfigFile) :
    render_loop registry w cfgs acc =
      (cfgs.mapM (fun (e : String × ConfigurationFile) =>
        match registry e.1 w with
        | some rendered => Except.ok (RenderedConfigFile.new e.2.path rendered)
        | none =>
          (Except.error (RenderError.TemplateRender e.1) :
            Except RenderError RenderedConfigFile))).map (fun l => acc ++ l) := by
  induction cfgs generalizing acc with
  | nil => simp [render_loop, List.mapM.loop, Except.map, Pure.pure, Except.pure]
  | cons e rest ih =>
    obtain ⟨name, metadata⟩ := e
    unfold render_loop
    rw [List.mapM_cons]
    cases hr : registry name w with
    | none =>
      simp only [hr]
      rfl
    | some rendered =>
      simp only [hr]
      show render_loop registry w rest (acc ++ [RenderedConfigFile.new metadata.path rendered]) = _
      rw [ih]
      cases hmr : rest.mapM (fun (e : String × ConfigurationFile) =>
          match registry e.1 w with
          | some rendered => Except.ok (RenderedConfigFile.new e.2.path rendered)
          | none =>
            (Except.error (RenderError.TemplateRender e.1) :
              Except RenderError RenderedConfigFile)) with
      | error err => simp [hmr, Except.map, Except.bind, Bind.bind, Pure.pure, Except.pure]
      | ok bs => simp [hmr, Except.map, Except.bind, Bind.bind, Pure.pure, Except.pure]

/-- C8: `render_config_files` renders each named template against a
context that is exactly the singleton mapping `"settings" ↦ settings`. -/
theorem c8_render_context (registry : String → List (String × Settings) → Option String)
    (config_files : ConfigurationFiles) (settings : Settings) :
    render_config_files registry config_files settings =
      config_files.mapM (fun (e : String × ConfigurationFile) =>
        match registry e.1 [("settings", settings)] with
        | some rendered => Except.ok (RenderedConfigFile.new e.2.path rendered)
        | none =>
          (Except.error (RenderError.TemplateRender e.1) :
            Except RenderError RenderedConfigFile)) := by
  unfold render_config_files
  rw [render_loop_eq]
  cases hmr : config_files.mapM (fun (e : String × ConfigurationFile) =>
      match registry e.1 [("settings", settings)] with
      | some rendered => Except.ok (RenderedConfigFile.new e.2.path rendered)
      | none =>
        (Except.error (RenderError.TemplateRender e.1) :
          Except RenderError RenderedConfigFile)) with
  | error err => rfl
  | ok bs => simp [Except.map]

/-! ## Witnesses for the controller claims -/

theorem c6_witness :
    get_metadata getmd6 myMetaTL ["abc".toList, "defgh".toList, "ghi".toList] =
      .ok [("abc".toList, Json.str ("x"))] := by
  have h := c6_get_metadata_best_effort getmd6 myMetaTL
    ["abc".toList, "defgh".toList, "ghi".toList] mk6 (by decide) ?_ ?_
  · exact h.trans (by rfl)
  · intro d hd
    simp only [List.mem_cons, List.not_mem_nil, or_false] at hd
    rcases hd with rfl | rfl | rfl
    · exact ⟨abcKey, by decide⟩
    · exact ⟨defghKey, by decide⟩
    · exact ⟨⟨["ghi".toList], by decide⟩, by decide⟩
  · intro d k v _ _ hg
    unfold getmd6 at hg
    by_cases h1 : k = abcKey
    · rw [if_pos h1] at hg
      injection hg with hg1
      obtain rfl : "\"x\"" = v := Option.some.inj hg1
      decide
    · rw [if_neg h1] at hg
      by_cases h2 : k = defghKey
      · rw [if_pos h2] at hg
        injection hg with hg1
        exact Option.noConfusion hg1
      · rw [if_neg h2] at hg
        exact Except.noConfusion hg

theorem c7_witness :
    settings_input (some jsonW) = .ok settingsW ∧
    settings_input (some (Json.obj [("settings", jsonW)])) = .ok settingsW := by
  have h := c7_settings_input_normalization jsonW settingsW (by decide)
  exact ⟨h.1, h.2.1⟩

end Bottlerocket
